import Mathlib

/-!
Verification of the slam-rs display-layout tool (`src/screen.rs`, `src/ui.rs`,
`src/config.rs`) against its natural-language specification.

Strings from the Rust side are modelled as lists of characters (`Str`), so that
all parsing code is executable and provable by computation.  Machine integers
(`u16`) are modelled as `Nat` with explicit `≤ 65535` range checks exactly where
the Rust code checks them (inside `parse::<u16>` and in the saturating
`as u16` cast).  Rust's `f64` rate parsing is modelled by its full acceptance
grammar (optional sign, decimal significand with optional exponent, and the
`inf`/`infinity`/`nan` words in any ASCII case), keeping finite values as
exact rationals `±N / 10^k` represented by the integer pair; `f64::round`
(round half away from zero) on a non-negative value `N/P` is the integer
`(2*N + P) / (2*P)`, and the cast saturates into `0 ..= 65535`.  The numeric
value of a rate stands in for the correctly-rounded binary64 result; the rate
section comment states exactly where the two agree and which statements rely
on the value.  The mode-parser regex class `\d` is the Unicode decimal-digit
class `\p{Nd}`, embedded as its code-point range table.  Hash maps are
modelled as association lists whose `insert` replaces the previous binding,
which is lookup-equivalent to `std::collections::HashMap`.
-/

namespace Slam

/-- Strings of the Rust source, modelled as lists of characters. -/
abbrev Str := List Char

/-- Decimal value of a digit character. -/
def digitVal (c : Char) : Nat := c.toNat - 48

/-- Numeric value of a list of decimal digit characters, most significant first.
This is the accumulator loop inside Rust's integer `FromStr` implementations. -/
def digitsVal (l : Str) : Nat := l.foldl (fun a c => a * 10 + digitVal c) 0

/-- Fuel-indexed digit printer; the fuel only makes the recursion structural,
`natToDec` supplies enough fuel for it never to run out. -/
def natToDecAux : Nat → Nat → Str
  | 0, _ => []
  | fuel + 1, n =>
    if n < 10 then [Char.ofNat (48 + n)]
    else natToDecAux fuel (n / 10) ++ [Char.ofNat (48 + n % 10)]

/-- Decimal digit characters of `n`, most significant first, no leading zeros:
the embedding of Rust's `Display` for unsigned integers.  The fuel `n + 1`
suffices because each step strictly divides `n` by 10. -/
def natToDec (n : Nat) : Str := natToDecAux (n + 1) n

/-- Embedding of Rust `str::parse::<u16>`: an optional leading `+`, then a
non-empty run of decimal digits whose value fits in `u16`. -/
def parseU16 (l : Str) : Option Nat :=
  let t : Str := match l with
    | [] => []
    | c :: rest => if c = '+' then rest else c :: rest
  if t.isEmpty then none
  else if t.all Char.isDigit then
    if digitsVal t ≤ 65535 then some (digitsVal t) else none
  else none

/-- Parse errors of `screen.rs` (`enum Error`). -/
inductive Error where
  | InvalidResolution : Str → Error
  | InvalidRate : Str → Error
  | InvalidPosition : Str → Error
  deriving DecidableEq, Inhabited

/-- The `Resolution` struct of `screen.rs`: height first, then width. -/
structure Resolution where
  height : Nat
  width : Nat
  deriving DecidableEq, Inhabited

/-- Embedding of Rust's `str::split('x')`: the (possibly empty) segments of `l`
between occurrences of the separator. -/
def splitOnChar (sep : Char) : Str → List Str
  | [] => [[]]
  | c :: cs =>
    if c = sep then [] :: splitOnChar sep cs
    else
      match splitOnChar sep cs with
      | r :: rs => (c :: r) :: rs
      | [] => [[c]]

/-- Embedding of `Resolution::from_str` (`screen.rs` lines 69-83): split on
`'x'`, keep the first two segments, parse each as `u16` discarding failures
(`flat_map`), and succeed exactly when two values remain. -/
def resolutionFromStr (s : Str) : Except Error Resolution :=
  match ((splitOnChar 'x' s).take 2).filterMap parseU16 with
  | [h, w] => .ok ⟨h, w⟩
  | _ => .error (.InvalidResolution s)

/-- Embedding of `Resolution::to_string` (`screen.rs` lines 85-89):
`format!("{}x{}", height, width)`. -/
def resolutionToStr (r : Resolution) : Str :=
  natToDec r.height ++ 'x' :: natToDec r.width

/-- Value of the first two `'x'`-separated parts of `s` when both parse as
`u16`; `none` when `s` has fewer than two parts or either of the first two
fails to parse.  Spec-side characterisation used to state the corrected C2. -/
def firstTwoParts (s : Str) : Option (Nat × Nat) :=
  match splitOnChar 'x' s with
  | p1 :: p2 :: _ => (parseU16 p1).bind fun h => (parseU16 p2).map fun w => (h, w)
  | _ => none

/-! Lemmas about digit printing and parsing. -/

theorem digitChar_isDigit {k : Nat} (h : k < 10) :
    (Char.ofNat (48 + k)).isDigit = true := by
  interval_cases k <;> decide

theorem digitVal_digitChar {k : Nat} (h : k < 10) :
    digitVal (Char.ofNat (48 + k)) = k := by
  interval_cases k <;> decide

theorem isDigit_ne_plus {c : Char} (h : c.isDigit = true) : c ≠ '+' := by
  intro hc; subst hc; exact absurd h (by decide)

theorem isDigit_ne_x {c : Char} (h : c.isDigit = true) : c ≠ 'x' := by
  intro hc; subst hc; exact absurd h (by decide)

theorem foldl_digits (l : Str) (a : Nat) :
    l.foldl (fun a c => a * 10 + digitVal c) a = a * 10 ^ l.length + digitsVal l := by
  induction l generalizing a with
  | nil => simp [digitsVal]
  | cons c cs ih =>
    simp only [List.foldl_cons, List.length_cons, digitsVal] at *
    rw [ih (a * 10 + digitVal c), ih (0 * 10 + digitVal c)]
    ring

theorem digitsVal_append_singleton (l : Str) (c : Char) :
    digitsVal (l ++ [c]) = digitsVal l * 10 + digitVal c := by
  simp [digitsVal, List.foldl_append]

theorem natToDecAux_all_digits {fuel n : Nat} (h : n < fuel) :
    ∀ c ∈ natToDecAux fuel n, c.isDigit = true := by
  induction fuel generalizing n with
  | zero => omega
  | succ fuel ih =>
    intro c hc
    simp only [natToDecAux] at hc
    split at hc
    · simp only [List.mem_singleton] at hc
      subst hc; exact digitChar_isDigit (by omega)
    · rw [List.mem_append] at hc
      rcases hc with hc | hc
      · exact ih (by omega) c hc
      · simp only [List.mem_singleton] at hc
        subst hc; exact digitChar_isDigit (Nat.mod_lt _ (by omega))

theorem natToDecAux_ne_nil {fuel n : Nat} (h : n < fuel) :
    natToDecAux fuel n ≠ [] := by
  cases fuel with
  | zero => omega
  | succ fuel =>
    simp only [natToDecAux]
    split <;> simp

theorem digitsVal_natToDecAux {fuel n : Nat} (h : n < fuel) :
    digitsVal (natToDecAux fuel n) = n := by
  induction fuel generalizing n with
  | zero => omega
  | succ fuel ih =>
    simp only [natToDecAux]
    split
    · next hlt =>
      show digitsVal [Char.ofNat (48 + n)] = n
      simp [digitsVal, digitVal_digitChar hlt]
    · next hge =>
      rw [digitsVal_append_singleton, ih (by omega),
        digitVal_digitChar (Nat.mod_lt _ (by omega))]
      omega

theorem natToDec_all_digits (n : Nat) : ∀ c ∈ natToDec n, c.isDigit = true :=
  natToDecAux_all_digits (Nat.lt_succ_self n)

theorem natToDec_ne_nil (n : Nat) : natToDec n ≠ [] :=
  natToDecAux_ne_nil (Nat.lt_succ_self n)

theorem digitsVal_natToDec (n : Nat) : digitsVal (natToDec n) = n :=
  digitsVal_natToDecAux (Nat.lt_succ_self n)

theorem parseU16_natToDec {n : Nat} (h : n ≤ 65535) :
    parseU16 (natToDec n) = some n := by
  have hall := natToDec_all_digits n
  have hne := natToDec_ne_nil n
  rcases hl : natToDec n with _ | ⟨c, cs⟩
  · exact absurd hl hne
  · have hc : c.isDigit = true := by
      apply hall; rw [hl]; exact List.mem_cons_self _ _
    have hcp : ¬ c = '+' := isDigit_ne_plus hc
    simp only [parseU16, if_neg hcp, List.isEmpty_cons, Bool.false_eq_true,
      if_false]
    rw [if_pos, if_pos]
    · rw [← hl, digitsVal_natToDec]
    · rw [← hl, digitsVal_natToDec]; exact h
    · rw [List.all_eq_true, ← hl]; exact fun c hc => hall c hc

/-! Lemmas about `splitOnChar`. -/

theorem splitOnChar_of_no_sep {sep : Char} {l : Str} (h : ∀ c ∈ l, c ≠ sep) :
    splitOnChar sep l = [l] := by
  induction l with
  | nil => rfl
  | cons c cs ih =>
    have hc : ¬ c = sep := h c (List.mem_cons_self _ _)
    simp only [splitOnChar, if_neg hc]
    rw [ih (fun x hx => h x (List.mem_cons_of_mem _ hx))]

theorem splitOnChar_append {sep : Char} {l1 : Str} (l2 : Str)
    (h : ∀ c ∈ l1, c ≠ sep) :
    splitOnChar sep (l1 ++ sep :: l2) = l1 :: splitOnChar sep l2 := by
  induction l1 with
  | nil => simp [splitOnChar]
  | cons c cs ih =>
    have hc : ¬ c = sep := h c (List.mem_cons_self _ _)
    simp only [List.cons_append, splitOnChar, if_neg hc, List.append_eq]
    rw [ih (fun x hx => h x (List.mem_cons_of_mem _ hx))]

/-! Claims C2 and C3: `Resolution` parsing and printing. -/

/-- Claim C2, counterexample to the claim as stated: the claim demands
`Err(InvalidResolution("0x0"))` because `"0x0"` splits on `'x'` into exactly
two parts `"0"`, `"0"` that are not positive integers, yet
`Resolution::from_str("0x0")` returns `Ok(Resolution {height: 0, width: 0})`. -/
theorem C2_counterexample :
    resolutionFromStr "0x0".data = .ok ⟨0, 0⟩ ∧
      splitOnChar 'x' "0x0".data = ["0".data, "0".data] ∧ ¬ 0 < 0 :=
  ⟨rfl, rfl, by omega⟩

/-- Claim C2 as amended: `Resolution::from_str(s)` returns
`Ok {height := h, width := w}` exactly when the first two `'x'`-separated parts
of `s` parse as `u16` values `h` and `w` (extra parts beyond the first two are
ignored, and the parts need not be positive); in every other case it returns
`Err(InvalidResolution(s))`. -/
theorem C2_amended (s : Str) :
    (∃ h w, firstTwoParts s = some (h, w) ∧ resolutionFromStr s = .ok ⟨h, w⟩) ∨
      (firstTwoParts s = none ∧
        resolutionFromStr s = .error (.InvalidResolution s)) := by
  unfold firstTwoParts resolutionFromStr
  rcases hs : splitOnChar 'x' s with _ | ⟨p1, rest⟩
  · right; simp
  · rcases rest with _ | ⟨p2, rest⟩
    · right
      constructor
      · rfl
      · rcases h1 : parseU16 p1 with _ | v <;> simp [List.filterMap, h1]
    · rcases h1 : parseU16 p1 with _ | v1 <;>
        rcases h2 : parseU16 p2 with _ | v2 <;>
        simp [List.filterMap, h1, h2]

/-- Claim C3: for every string of the form `"HxW"` with `H`, `W` positive
integers at most 65535 written as decimal digits, `Resolution::from_str`
succeeds, and `to_string` on the parsed value reproduces the input string. -/
theorem C3_resolution_roundtrip (h w : Nat) (hpos : 1 ≤ h) (hle : h ≤ 65535)
    (wpos : 1 ≤ w) (wle : w ≤ 65535) :
    ∃ r, resolutionFromStr (natToDec h ++ 'x' :: natToDec w) = .ok r ∧
      resolutionToStr r = natToDec h ++ 'x' :: natToDec w := by
  refine ⟨⟨h, w⟩, ?_, rfl⟩
  have hnox : ∀ c ∈ natToDec h, c ≠ 'x' :=
    fun c hc => isDigit_ne_x (natToDec_all_digits h c hc)
  have hwnox : ∀ c ∈ natToDec w, c ≠ 'x' :=
    fun c hc => isDigit_ne_x (natToDec_all_digits w c hc)
  unfold resolutionFromStr
  rw [splitOnChar_append _ hnox, splitOnChar_of_no_sep hwnox]
  simp [List.filterMap, parseU16_natToDec hle, parseU16_natToDec wle]

/-- Claim C3, witness: the round trip at the concrete string `"1920x1080"`. -/
theorem C3_witness :
    ∃ r, resolutionFromStr "1920x1080".data = .ok r ∧
      resolutionToStr r = "1920x1080".data := by
  have h := C3_resolution_roundtrip 1920 1080 (by omega) (by omega) (by omega)
    (by omega)
  have he : natToDec 1920 ++ 'x' :: natToDec 1080 = "1920x1080".data := rfl
  rwa [he] at h

/-! Rate parsing (`Rate::from_str`, `screen.rs` lines 116-129).

Rust parses the string as an `f64` and computes `round() as u16` (round half
away from zero, then a saturating cast; `NaN` casts to 0, infinities saturate).
The embedding accepts exactly the strings Rust's `f64::from_str` accepts:
an optional sign, then `inf`/`infinity`/`nan` in any ASCII case, or a decimal
significand (`digits [. digits?]` or `. digits`) with an optional
`e`/`E`-exponent.  A finite value is kept exactly as `±N / P` with `P` a power
of ten.  The numeric result rounds this exact value; the program rounds the
nearest binary64, and the two agree except when the exact value lies within
the binary64 conversion error (relative `2^-52`) of a rounding boundary — in
particular on every concrete string evaluated in this file.  No theorem below
states the numeric value beyond its membership in `0 ..= 65535`, which any
rounded-and-cast `f64` satisfies. -/

/-- The `Rate` struct of `screen.rs`. -/
structure Rate where
  value : Nat
  deriving DecidableEq, Inhabited

/-- Sign handling of the `f64` grammar: strip one optional leading `+` or `-`,
reporting whether the value is negated. -/
def stripSign : Str → Bool × Str
  | [] => (false, [])
  | c :: rest =>
    if c = '-' then (true, rest)
    else if c = '+' then (false, rest) else (false, c :: rest)

/-- Result of `f64::from_str`: a finite value `±N / P` (`P` a power of ten),
an infinity, or `NaN`. -/
inductive F64Val where
  | num : Bool → Nat → Nat → F64Val
  | inf : Bool → F64Val
  | nan : F64Val
  deriving DecidableEq, Inhabited

/-- ASCII lowercasing of one character (`u8::eq_ignore_ascii_case`). -/
def lowerAscii (c : Char) : Char :=
  if 65 ≤ c.toNat ∧ c.toNat ≤ 90 then Char.ofNat (c.toNat + 32) else c

/-- Case-insensitive comparison with a fixed lowercase word. -/
def matchesCI : Str → Str → Bool
  | [], [] => true
  | c :: cs, w :: ws => lowerAscii c = w && matchesCI cs ws
  | _, _ => false

/-- The exponent part after `e`/`E`: an optionally signed non-empty digit run
ending the string; it scales the significand `n / p` by a power of ten. -/
def parseExpPart (neg : Bool) (n p : Nat) (r : Str) : Option F64Val :=
  match stripSign r with
  | (eneg, d) =>
    if ¬ d.isEmpty ∧ d.all Char.isDigit then
      if eneg then some (.num neg n (p * 10 ^ digitsVal d))
      else some (.num neg (n * 10 ^ digitsVal d) p)
    else none

/-- After the decimal dot: `ip` the integer digits, `fr` the fraction digits,
`r3` the rest (empty or an exponent); at least one digit is required. -/
def parseFracBody (neg : Bool) (ip fr r3 : Str) : Option F64Val :=
  if ip.isEmpty ∧ fr.isEmpty then none
  else
    match r3 with
    | [] =>
      some (.num neg (digitsVal ip * 10 ^ fr.length + digitsVal fr)
        (10 ^ fr.length))
    | e :: r4 =>
      if e = 'e' ∨ e = 'E' then
        parseExpPart neg (digitsVal ip * 10 ^ fr.length + digitsVal fr)
          (10 ^ fr.length) r4
      else none

/-- After the leading digit run `ip`: the rest is empty (integer literal), a
dot followed by fraction digits and an optional exponent, or an exponent. -/
def parseSigBody (neg : Bool) (ip : Str) : Str → Option F64Val
  | [] => if ip.isEmpty then none else some (.num neg (digitsVal ip) 1)
  | c :: r2 =>
    if c = '.' then
      parseFracBody neg ip (r2.takeWhile Char.isDigit)
        (r2.dropWhile Char.isDigit)
    else if (c = 'e' ∨ c = 'E') ∧ ¬ ip.isEmpty then
      parseExpPart neg (digitsVal ip) 1 r2
    else none

/-- The number grammar of `f64::from_str` after the sign. -/
def parseSig (neg : Bool) (t : Str) : Option F64Val :=
  parseSigBody neg (t.takeWhile Char.isDigit) (t.dropWhile Char.isDigit)

/-- After the sign: a string starting with a digit or a dot is a number;
anything else can only be one of the special words. -/
def parseF64Body (neg : Bool) : Str → Option F64Val
  | [] => none
  | c :: rest =>
    if c.isDigit ∨ c = '.' then parseSig neg (c :: rest)
    else if matchesCI (c :: rest) "inf".data
        ∨ matchesCI (c :: rest) "infinity".data then some (.inf neg)
    else if matchesCI (c :: rest) "nan".data then some .nan
    else none

/-- Embedding of `str::parse::<f64>`: acceptance is exactly Rust's grammar;
finite values are kept as exact rationals (see the section comment). -/
def parseF64 (l : Str) : Option F64Val :=
  match stripSign l with
  | (neg, t) => parseF64Body neg t

/-- Round half away from zero of the non-negative rational `n / p`. -/
def roundHalfUp (n p : Nat) : Nat := (2 * n + p) / (2 * p)

/-- The `round() as u16` step: negatives and `NaN` cast to 0, positive
infinity (and any overflow) saturates to 65535, finite non-negative values
round half away from zero and saturate. -/
def rateRoundCast : F64Val → Nat
  | .num true _ _ => 0
  | .num false n p => min (roundHalfUp n p) 65535
  | .inf true => 0
  | .inf false => 65535
  | .nan => 0

/-- Embedding of `Rate::from_str`: parse as `f64`, round and cast; a string
the grammar rejects is reported as `InvalidRate`. -/
def rateFromStr (l : Str) : Except Error Rate :=
  match parseF64 l with
  | none => .error (.InvalidRate l)
  | some v => .ok ⟨rateRoundCast v⟩

/-! Mode parsing (`OutputModes::from_str`, `screen.rs` lines 406-420).

The regex `(\d+x\d+) (\d+\.\d+)\n` is embedded as a direct scanner: at each
position try to match a maximal digit run, `'x'`, digits, `' '`, digits, `'.'`,
digits, `'\n'`; on failure advance one character.  The regex crate's `\d` is
the Unicode decimal-digit class `\p{Nd}` (not only ASCII), embedded below as
its code-point range table.  Because every character class following a `\d+`
is disjoint from the digits, greedy maximal-run matching coincides with the
regex engine's leftmost match semantics.  The scanner recursion is made
structural by a fuel argument equal to the input length, which is sufficient
because every step consumes at least one character. -/

/-- The code-point ranges of the Unicode general category `Nd` (decimal
digits), as shipped with the regex crate (Unicode 15.0). -/
def ndRanges : List (Nat × Nat) :=
  [(0x30, 0x39), (0x660, 0x669), (0x6F0, 0x6F9), (0x7C0, 0x7C9),
   (0x966, 0x96F), (0x9E6, 0x9EF), (0xA66, 0xA6F), (0xAE6, 0xAEF),
   (0xB66, 0xB6F), (0xBE6, 0xBEF), (0xC66, 0xC6F), (0xCE6, 0xCEF),
   (0xD66, 0xD6F), (0xDE6, 0xDEF), (0xE50, 0xE59), (0xED0, 0xED9),
   (0xF20, 0xF29), (0x1040, 0x1049), (0x1090, 0x1099), (0x17E0, 0x17E9),
   (0x1810, 0x1819), (0x1946, 0x194F), (0x19D0, 0x19D9), (0x1A80, 0x1A89),
   (0x1A90, 0x1A99), (0x1B50, 0x1B59), (0x1BB0, 0x1BB9), (0x1C40, 0x1C49),
   (0x1C50, 0x1C59), (0xA620, 0xA629), (0xA8D0, 0xA8D9), (0xA900, 0xA909),
   (0xA9D0, 0xA9D9), (0xA9F0, 0xA9F9), (0xAA50, 0xAA59), (0xABF0, 0xABF9),
   (0xFF10, 0xFF19), (0x104A0, 0x104A9), (0x10D30, 0x10D39),
   (0x11066, 0x1106F), (0x110F0, 0x110F9), (0x11136, 0x1113F),
   (0x111D0, 0x111D9), (0x112F0, 0x112F9), (0x11450, 0x11459),
   (0x114D0, 0x114D9), (0x11650, 0x11659), (0x116C0, 0x116C9),
   (0x11730, 0x11739), (0x118E0, 0x118E9), (0x11950, 0x11959),
   (0x11C50, 0x11C59), (0x11D50, 0x11D59), (0x11DA0, 0x11DA9),
   (0x11F50, 0x11F59), (0x16A60, 0x16A69), (0x16AC0, 0x16AC9),
   (0x16B50, 0x16B59), (0x1D7CE, 0x1D7FF), (0x1E140, 0x1E149),
   (0x1E2F0, 0x1E2F9), (0x1E4F0, 0x1E4F9), (0x1E950, 0x1E959),
   (0x1FBF0, 0x1FBF9)]

/-- The regex class `\d` = `\p{Nd}`: a Unicode decimal digit. -/
def isNdDigit (c : Char) : Bool :=
  ndRanges.any fun r => decide (r.1 ≤ c.toNat) && decide (c.toNat ≤ r.2)

/-- Match a non-empty maximal `\d`-run at the front of `l`. -/
def expectDigits (l : Str) : Option (Str × Str) :=
  match l.takeWhile isNdDigit with
  | [] => none
  | d :: ds => some (d :: ds, l.dropWhile isNdDigit)

/-- Match the literal character `c` at the front of the input. -/
def expectChar (c : Char) : Str → Option Str
  | [] => none
  | x :: xs => if x = c then some xs else none

/-- Try to match `(\d+x\d+) (\d+\.\d+)\n` at the start of `l`; on success
return the two capture groups and the rest of the input. -/
def tryMatch (l : Str) : Option (Str × Str × Str) :=
  match expectDigits l with
  | none => none
  | some (d1, r1) =>
    match expectChar 'x' r1 with
    | none => none
    | some r2 =>
      match expectDigits r2 with
      | none => none
      | some (d2, r3) =>
        match expectChar ' ' r3 with
        | none => none
        | some r4 =>
          match expectDigits r4 with
          | none => none
          | some (d3, r5) =>
            match expectChar '.' r5 with
            | none => none
            | some r6 =>
              match expectDigits r6 with
              | none => none
              | some (d4, r7) =>
                match expectChar '\n' r7 with
                | none => none
                | some r8 => some (d1 ++ 'x' :: d2, d3 ++ '.' :: d4, r8)

/-- Scan for all non-overlapping matches, left to right (`captures_iter`). -/
def findMatchesAux : Nat → Str → List (Str × Str)
  | 0, _ => []
  | _ + 1, [] => []
  | fuel + 1, c :: rest =>
    match tryMatch (c :: rest) with
    | some (res, rate, rem) => (res, rate) :: findMatchesAux fuel rem
    | none => findMatchesAux fuel rest

/-- All `(resolution, rate)` capture pairs of the input. -/
def findMatches (s : Str) : List (Str × Str) := findMatchesAux s.length s

/-- Parse each captured pair in order, stopping at the first error
(the `?` operators inside the `captures_iter` loop). -/
def collectModes : List (Str × Str) → Except Error (List Resolution × List Rate)
  | [] => .ok ([], [])
  | (rs, ts) :: rest =>
    match resolutionFromStr rs with
    | .error e => .error e
    | .ok r =>
      match rateFromStr ts with
      | .error e => .error e
      | .ok t =>
        match collectModes rest with
        | .error e => .error e
        | .ok (xs, ys) => .ok (r :: xs, t :: ys)

/-! Sorting and deduplication (`sort_and_filter_unique`, `screen.rs` lines
367-373).  Rust stable-sorts with the reversed comparator `b.cmp(a)` and then
keeps the first occurrence of each distinct value (`Itertools::unique`).  On a
total antisymmetric order the sorted permutation of a list is unique as a
list, so the insertion sort below is extensionally equal to Rust's merge
sort. -/

/-- Insert into a descending-sorted list, keeping it descending. -/
def insertDescBy (le : α → α → Bool) (x : α) : List α → List α
  | [] => [x]
  | y :: ys => if le y x then x :: y :: ys else y :: insertDescBy le x ys

/-- Sort descending by the given total order. -/
def sortDescBy (le : α → α → Bool) (l : List α) : List α :=
  l.foldr (insertDescBy le) []

/-- Keep the first occurrence of each distinct value (`Itertools::unique`),
`seen` being the set of values already emitted. -/
def uniqueAux [DecidableEq α] (seen : List α) : List α → List α
  | [] => []
  | x :: xs =>
    if x ∈ seen then uniqueAux seen xs else x :: uniqueAux (x :: seen) xs

/-- Embedding of `sort_and_filter_unique`: sort descending, drop duplicates. -/
def sortAndFilterUnique [DecidableEq α] (le : α → α → Bool) (l : List α) :
    List α :=
  uniqueAux [] (sortDescBy le l)

/-- The `Ord` instance of `Resolution` (height first, then width), as the
`≤` test used for the descending sort. -/
def resLe (a b : Resolution) : Bool :=
  decide (a.height < b.height ∨ (a.height = b.height ∧ a.width ≤ b.width))

/-- The `Ord` instance of `Rate` as the `≤` test. -/
def rateLe (a b : Rate) : Bool := decide (a.value ≤ b.value)

/-- The `OutputModes` struct of `screen.rs`. -/
structure OutputModes where
  resolutions : List Resolution
  rates : List Rate
  deriving DecidableEq, Inhabited

/-- Embedding of `OutputModes::remove_duplicates`. -/
def removeDuplicates (m : OutputModes) : OutputModes :=
  ⟨sortAndFilterUnique resLe m.resolutions,
    sortAndFilterUnique rateLe m.rates⟩

/-- Embedding of `OutputModes::is_empty`: either list empty. -/
def OutputModes.isEmptyB (m : OutputModes) : Bool :=
  m.resolutions.isEmpty || m.rates.isEmpty

/-- Embedding of `OutputModes::from_str`: collect all regex captures, parse
them in order (`?` aborts on the first error), then deduplicate. -/
def outputModesFromStr (s : Str) : Except Error OutputModes :=
  match collectModes (findMatches s) with
  | .error e => .error e
  | .ok (xs, ys) => .ok (removeDuplicates ⟨xs, ys⟩)

/-! Lemmas about the descending insertion sort and duplicate removal. -/

theorem mem_insertDescBy (le : α → α → Bool) (x w : α) (l : List α) :
    w ∈ insertDescBy le x l ↔ w = x ∨ w ∈ l := by
  induction l with
  | nil => simp [insertDescBy]
  | cons y ys ih =>
    simp only [insertDescBy]
    split
    · simp [List.mem_cons]
    · simp only [List.mem_cons, ih]
      tauto

theorem pairwise_insertDescBy (le : α → α → Bool)
    (htot : ∀ a b, le a b = true ∨ le b a = true)
    (htrans : ∀ a b c, le a b = true → le b c = true → le a c = true)
    (x : α) {l : List α} (h : List.Pairwise (fun a b => le b a = true) l) :
    List.Pairwise (fun a b => le b a = true) (insertDescBy le x l) := by
  induction l with
  | nil => simp [insertDescBy]
  | cons y ys ih =>
    rw [List.pairwise_cons] at h
    simp only [insertDescBy]
    split
    · next hyx =>
      rw [List.pairwise_cons]
      refine ⟨?_, List.pairwise_cons.2 h⟩
      intro w hw
      rcases List.mem_cons.1 hw with rfl | hw
      · exact hyx
      · exact htrans w y x (h.1 w hw) hyx
    · next hyx =>
      rw [List.pairwise_cons]
      constructor
      · intro w hw
        rcases (mem_insertDescBy le x w ys).1 hw with rfl | hw
        · rcases htot w y with hwy | hyw
          · exact hwy
          · exact absurd hyw (by simpa using hyx)
        · exact h.1 w hw
      · exact ih h.2

theorem pairwise_sortDescBy (le : α → α → Bool)
    (htot : ∀ a b, le a b = true ∨ le b a = true)
    (htrans : ∀ a b c, le a b = true → le b c = true → le a c = true)
    (l : List α) :
    List.Pairwise (fun a b => le b a = true) (sortDescBy le l) := by
  induction l with
  | nil => simp [sortDescBy]
  | cons c cs ih => exact pairwise_insertDescBy le htot htrans c ih

theorem uniqueAux_sublist [DecidableEq α] (seen l : List α) :
    List.Sublist (uniqueAux seen l) l := by
  induction l generalizing seen with
  | nil => simp [uniqueAux]
  | cons x xs ih =>
    simp only [uniqueAux]
    split
    · exact (ih seen).cons x
    · exact (ih (x :: seen)).cons₂ x

theorem mem_uniqueAux [DecidableEq α] (x : α) (seen l : List α) :
    x ∈ uniqueAux seen l ↔ x ∈ l ∧ x ∉ seen := by
  induction l generalizing seen with
  | nil => simp [uniqueAux]
  | cons y ys ih =>
    simp only [uniqueAux]
    split
    · next hy =>
      rw [ih]
      simp only [List.mem_cons]
      constructor
      · rintro ⟨h1, h2⟩; exact ⟨Or.inr h1, h2⟩
      · rintro ⟨h1 | h1, h2⟩
        · exact absurd (h1 ▸ hy) h2
        · exact ⟨h1, h2⟩
    · next hy =>
      simp only [List.mem_cons, ih, List.mem_cons]
      by_cases hxy : x = y
      · subst hxy; simp [hy]
      · simp [hxy]

theorem nodup_uniqueAux [DecidableEq α] (seen l : List α) :
    (uniqueAux seen l).Nodup := by
  induction l generalizing seen with
  | nil => simp [uniqueAux]
  | cons y ys ih =>
    simp only [uniqueAux]
    split
    · exact ih seen
    · rw [List.nodup_cons]
      refine ⟨fun hmem => ?_, ih (y :: seen)⟩
      exact ((mem_uniqueAux y (y :: seen) ys).1 hmem).2 (List.mem_cons_self _ _)

theorem sortAndFilterUnique_spec [DecidableEq α] (le : α → α → Bool)
    (htot : ∀ a b, le a b = true ∨ le b a = true)
    (htrans : ∀ a b c, le a b = true → le b c = true → le a c = true)
    (l : List α) :
    List.Pairwise (fun a b => le b a = true) (sortAndFilterUnique le l) ∧
      (sortAndFilterUnique le l).Nodup :=
  ⟨List.Pairwise.sublist (uniqueAux_sublist _ _)
      (pairwise_sortDescBy le htot htrans l),
    nodup_uniqueAux _ _⟩

theorem resLe_total : ∀ a b, resLe a b = true ∨ resLe b a = true := by
  intro a b; simp only [resLe, decide_eq_true_eq]; omega

theorem resLe_trans :
    ∀ a b c, resLe a b = true → resLe b c = true → resLe a c = true := by
  intro a b c; simp only [resLe, decide_eq_true_eq]; omega

theorem rateLe_total : ∀ a b, rateLe a b = true ∨ rateLe b a = true := by
  intro a b; simp only [rateLe, decide_eq_true_eq]; omega

theorem rateLe_trans :
    ∀ a b c, rateLe a b = true → rateLe b c = true → rateLe a c = true := by
  intro a b c; simp only [rateLe, decide_eq_true_eq]; omega

/-- Claim C1: on the capability text
`"1920x1080 60.00\n1920x1080 60.00\n1280x720 75.00\n"` the parsed catalog has
resolutions exactly `[1920x1080, 1280x720]` and rates exactly `[75, 60]`; and
for every input on which `OutputModes::from_str` succeeds, both lists are
sorted descending (each later entry `≤` each earlier one under the `Ord`
instance) with all duplicates removed. -/
theorem C1_output_modes :
    (outputModesFromStr
        "1920x1080 60.00\n1920x1080 60.00\n1280x720 75.00\n".data
      = .ok ⟨[⟨1920, 1080⟩, ⟨1280, 720⟩], [⟨75⟩, ⟨60⟩]⟩) ∧
    ∀ s m, outputModesFromStr s = .ok m →
      (List.Pairwise (fun a b => resLe b a = true) m.resolutions ∧
        m.resolutions.Nodup) ∧
      (List.Pairwise (fun a b => rateLe b a = true) m.rates ∧
        m.rates.Nodup) := by
  refine ⟨rfl, ?_⟩
  intro s m h
  unfold outputModesFromStr at h
  split at h
  · cases h
  · rename_i xs ys heq
    simp only [Except.ok.injEq] at h
    subst h
    exact ⟨sortAndFilterUnique_spec resLe resLe_total resLe_trans xs,
      sortAndFilterUnique_spec rateLe rateLe_total rateLe_trans ys⟩

/-- Claim C1, witness: the sortedness and duplicate-freedom established at the
concrete capability text. -/
theorem C1_witness :
    (List.Pairwise (fun a b => resLe b a = true)
        (OutputModes.mk [⟨1920, 1080⟩, ⟨1280, 720⟩] [⟨75⟩, ⟨60⟩]).resolutions ∧
      (OutputModes.mk [⟨1920, 1080⟩, ⟨1280, 720⟩] [⟨75⟩, ⟨60⟩]).resolutions.Nodup) ∧
    (List.Pairwise (fun a b => rateLe b a = true)
        (OutputModes.mk [⟨1920, 1080⟩, ⟨1280, 720⟩] [⟨75⟩, ⟨60⟩]).rates ∧
      (OutputModes.mk [⟨1920, 1080⟩, ⟨1280, 720⟩] [⟨75⟩, ⟨60⟩]).rates.Nodup) :=
  C1_output_modes.2
    "1920x1080 60.00\n1920x1080 60.00\n1280x720 75.00\n".data
    ⟨[⟨1920, 1080⟩, ⟨1280, 720⟩], [⟨75⟩, ⟨60⟩]⟩ rfl

/-! Inversion lemmas for the scanner, and claim C9. -/

theorem isDigit_ne_minus {c : Char} (h : c.isDigit = true) : c ≠ '-' := by
  intro hc; subst hc; exact absurd h (by decide)

theorem expectDigits_inv {l d r : Str} (h : expectDigits l = some (d, r)) :
    d ≠ [] ∧ (∀ c ∈ d, isNdDigit c = true) ∧ l = d ++ r := by
  unfold expectDigits at h
  split at h
  · cases h
  · rename_i c cs heq
    simp only [Option.some.injEq, Prod.mk.injEq] at h
    obtain ⟨hd, hr⟩ := h
    subst hd; subst hr
    refine ⟨by simp, ?_, ?_⟩
    · intro x hx
      exact List.mem_takeWhile_imp (heq ▸ hx)
    · rw [← heq]
      exact (List.takeWhile_append_dropWhile _ _).symm

theorem expectChar_inv {c : Char} {l r : Str} (h : expectChar c l = some r) :
    l = c :: r := by
  unfold expectChar at h
  split at h
  · cases h
  · rename_i x xs
    split at h
    · next hx =>
      simp only [Option.some.injEq] at h
      rw [hx, h]
    · cases h

/-- A successful `tryMatch` has a rate group of the shape `\d+ . \d+` whose
digits are Unicode decimal digits drawn from the input, and a remainder drawn
from the input. -/
theorem tryMatch_rate_shape {l res rate rem : Str}
    (h : tryMatch l = some (res, rate, rem)) :
    (∃ a b, rate = a ++ '.' :: b ∧ a ≠ [] ∧
      (∀ c ∈ a, isNdDigit c = true ∧ c ∈ l) ∧
      (∀ c ∈ b, isNdDigit c = true ∧ c ∈ l)) ∧
    ∀ c ∈ rem, c ∈ l := by
  unfold tryMatch at h
  split at h
  · exact absurd h (by simp)
  rename_i d1 r1 h1
  split at h
  · exact absurd h (by simp)
  rename_i r2 h2
  split at h
  · exact absurd h (by simp)
  rename_i d2 r3 h3
  split at h
  · exact absurd h (by simp)
  rename_i r4 h4
  split at h
  · exact absurd h (by simp)
  rename_i d3 r5 h5
  split at h
  · exact absurd h (by simp)
  rename_i r6 h6
  split at h
  · exact absurd h (by simp)
  rename_i d4 r7 h7
  split at h
  · exact absurd h (by simp)
  rename_i r8 h8
  simp only [Option.some.injEq, Prod.mk.injEq] at h
  obtain ⟨-, hrate, hrem⟩ := h
  obtain ⟨-, -, hl1⟩ := expectDigits_inv h1
  have hl2 := expectChar_inv h2
  obtain ⟨-, -, hl3⟩ := expectDigits_inv h3
  have hl4 := expectChar_inv h4
  obtain ⟨hne3, hdig3, hl5⟩ := expectDigits_inv h5
  have hl6 := expectChar_inv h6
  obtain ⟨-, hdig4, hl7⟩ := expectDigits_inv h7
  have hl8 := expectChar_inv h8
  have m1 : ∀ c ∈ r1, c ∈ l := by
    intro c hc; rw [hl1]; exact List.mem_append_right _ hc
  have m2 : ∀ c ∈ r2, c ∈ l := by
    intro c hc; exact m1 c (by rw [hl2]; exact List.mem_cons_of_mem _ hc)
  have m3 : ∀ c ∈ r3, c ∈ l := by
    intro c hc; exact m2 c (by rw [hl3]; exact List.mem_append_right _ hc)
  have m4 : ∀ c ∈ r4, c ∈ l := by
    intro c hc; exact m3 c (by rw [hl4]; exact List.mem_cons_of_mem _ hc)
  have m5 : ∀ c ∈ r5, c ∈ l := by
    intro c hc; exact m4 c (by rw [hl5]; exact List.mem_append_right _ hc)
  have m6 : ∀ c ∈ r6, c ∈ l := by
    intro c hc; exact m5 c (by rw [hl6]; exact List.mem_cons_of_mem _ hc)
  have m7 : ∀ c ∈ r7, c ∈ l := by
    intro c hc; exact m6 c (by rw [hl7]; exact List.mem_append_right _ hc)
  have m8 : ∀ c ∈ r8, c ∈ l := by
    intro c hc; exact m7 c (by rw [hl8]; exact List.mem_cons_of_mem _ hc)
  have md3 : ∀ c ∈ d3, c ∈ l := by
    intro c hc; exact m4 c (by rw [hl5]; exact List.mem_append_left _ hc)
  have md4 : ∀ c ∈ d4, c ∈ l := by
    intro c hc; exact m6 c (by rw [hl7]; exact List.mem_append_left _ hc)
  refine ⟨⟨d3, d4, hrate.symm, hne3,
    fun c hc => ⟨hdig3 c hc, md3 c hc⟩,
    fun c hc => ⟨hdig4 c hc, md4 c hc⟩⟩, ?_⟩
  intro c hc
  rw [← hrem] at hc
  exact m8 c hc

theorem findMatchesAux_rate_shape {fuel : Nat} {l : Str} {p : Str × Str}
    (hmem : p ∈ findMatchesAux fuel l) :
    ∃ a b, p.2 = a ++ '.' :: b ∧ a ≠ [] ∧
      (∀ c ∈ a, isNdDigit c = true ∧ c ∈ l) ∧
      (∀ c ∈ b, isNdDigit c = true ∧ c ∈ l) := by
  induction fuel generalizing l with
  | zero => cases hmem
  | succ fuel ih =>
    cases l with
    | nil => cases hmem
    | cons c rest =>
      simp only [findMatchesAux] at hmem
      split at hmem
      · next res rate rem heq =>
        rcases List.mem_cons.1 hmem with rfl | hmem
        · exact (tryMatch_rate_shape heq).1
        · obtain ⟨a, b, hab, hne, hda, hdb⟩ := ih hmem
          have hsub := (tryMatch_rate_shape heq).2
          exact ⟨a, b, hab, hne,
            fun x hx => ⟨(hda x hx).1, hsub x (hda x hx).2⟩,
            fun x hx => ⟨(hdb x hx).1, hsub x (hdb x hx).2⟩⟩
      · obtain ⟨a, b, hab, hne, hda, hdb⟩ := ih hmem
        exact ⟨a, b, hab, hne,
          fun x hx => ⟨(hda x hx).1, List.mem_cons_of_mem _ (hda x hx).2⟩,
          fun x hx => ⟨(hdb x hx).1, List.mem_cons_of_mem _ (hdb x hx).2⟩⟩

theorem takeWhile_dropWhile_append {p : Char → Bool} {a : Str} {x : Char}
    (b : Str) (ha : ∀ c ∈ a, p c = true) (hx : p x = false) :
    (a ++ x :: b).takeWhile p = a ∧ (a ++ x :: b).dropWhile p = x :: b := by
  induction a with
  | nil => simp [List.takeWhile_cons, List.dropWhile_cons, hx]
  | cons c cs ih =>
    have hc : p c = true := ha c (List.mem_cons_self _ _)
    have ih2 := ih (fun d hd => ha d (List.mem_cons_of_mem _ hd))
    simp only [List.cons_append, List.takeWhile_cons, List.dropWhile_cons, hc,
      if_true]
    exact ⟨by rw [ih2.1], by rw [ih2.2]⟩

theorem takeWhile_eq_self_of_all {p : Char → Bool} {l : Str}
    (h : ∀ c ∈ l, p c = true) : l.takeWhile p = l := by
  induction l with
  | nil => rfl
  | cons c cs ih =>
    rw [List.takeWhile_cons, if_pos (h c (List.mem_cons_self _ _)),
      ih (fun d hd => h d (List.mem_cons_of_mem _ hd))]

theorem dropWhile_eq_nil_of_all {p : Char → Bool} {l : Str}
    (h : ∀ c ∈ l, p c = true) : l.dropWhile p = [] := by
  induction l with
  | nil => rfl
  | cons c cs ih =>
    rw [List.dropWhile_cons, if_pos (h c (List.mem_cons_self _ _))]
    exact ih (fun d hd => h d (List.mem_cons_of_mem _ hd))

/-- A digits-dot-digits string (ASCII digits) parses as the exact finite
value `N / 10^k`. -/
theorem parseF64_digits {a b : Str} (ha : a ≠ [])
    (had : ∀ c ∈ a, c.isDigit = true) (hbd : ∀ c ∈ b, c.isDigit = true) :
    parseF64 (a ++ '.' :: b) =
      some (.num false (digitsVal a * 10 ^ b.length + digitsVal b)
        (10 ^ b.length)) := by
  obtain ⟨c, a', rfl⟩ : ∃ c a', a = c :: a' := by
    cases a with
    | nil => exact absurd rfl ha
    | cons c a' => exact ⟨c, a', rfl⟩
  have hc : c.isDigit = true := had c (List.mem_cons_self _ _)
  have hsw : (c :: a' ++ '.' :: b).takeWhile Char.isDigit = c :: a' ∧
      (c :: a' ++ '.' :: b).dropWhile Char.isDigit = '.' :: b :=
    takeWhile_dropWhile_append b had (by decide)
  have hstrip : stripSign (c :: a' ++ '.' :: b)
      = (false, c :: a' ++ '.' :: b) := by
    simp only [List.cons_append, stripSign, if_neg (isDigit_ne_minus hc),
      if_neg (isDigit_ne_plus hc)]
  unfold parseF64
  rw [hstrip]
  show parseF64Body false (c :: (a' ++ '.' :: b)) = _
  simp only [parseF64Body]
  rw [if_pos (Or.inl hc)]
  show parseSigBody false ((c :: a' ++ '.' :: b).takeWhile Char.isDigit)
      ((c :: a' ++ '.' :: b).dropWhile Char.isDigit) = _
  rw [hsw.1, hsw.2]
  simp only [parseSigBody]
  rw [if_pos trivial, takeWhile_eq_self_of_all hbd,
    dropWhile_eq_nil_of_all hbd]
  unfold parseFracBody
  rw [if_neg (by simp)]

theorem resolutionFromStr_error_shape {s : Str} {e : Error}
    (h : resolutionFromStr s = .error e) : e = .InvalidResolution s := by
  unfold resolutionFromStr at h
  split at h
  · cases h
  · simp only [Except.error.injEq] at h
    exact h.symm

theorem collectModes_no_invalid_rate {pairs : List (Str × Str)}
    (hshape : ∀ p ∈ pairs, ∃ a b, p.2 = a ++ '.' :: b ∧ a ≠ [] ∧
      (∀ c ∈ a, c.isDigit = true) ∧ (∀ c ∈ b, c.isDigit = true)) :
    ∀ r, collectModes pairs ≠ .error (.InvalidRate r) := by
  induction pairs with
  | nil => intro r h; cases h
  | cons q rest ih =>
    intro r h
    obtain ⟨rs, ts⟩ := q
    unfold collectModes at h
    split at h
    · next e heq =>
      rw [show (Except.error e : Except Error (List Resolution × List Rate))
          = .error e from rfl] at h
      simp only [Except.error.injEq] at h
      subst h
      exact absurd (resolutionFromStr_error_shape heq) (by simp)
    · split at h
      · next e heq =>
        obtain ⟨a, b, hts, hane, hda, hdb⟩ :=
          hshape (rs, ts) (List.mem_cons_self _ _)
        simp only at hts
        have hok : rateFromStr ts =
            .ok ⟨min (roundHalfUp
              (digitsVal a * 10 ^ b.length + digitsVal b) (10 ^ b.length))
              65535⟩ := by
          rw [hts]
          unfold rateFromStr
          rw [parseF64_digits hane hda hdb]
          rfl
        rw [hok] at heq
        cases heq
      · split at h
        · next heq =>
          simp only [Except.error.injEq] at h
          subst h
          exact ih (fun p hp => hshape p (List.mem_cons_of_mem _ hp)) r heq
        · cases h

/-- Claim C9, counterexample to the claim as stated: the regex class `\d` is
Unicode, so on `"12x34 5.٧\n"` (the final digit is U+0667, ARABIC-INDIC DIGIT
SEVEN) the mode regex matches with rate substring `"5.٧"`, which `f64`
parsing rejects, and `OutputModes::from_str` returns `Err(InvalidRate("5.٧"))`
— so it can return `InvalidRate`. -/
theorem C9_counterexample :
    outputModesFromStr "12x34 5.٧\n".data
      = .error (.InvalidRate "5.٧".data) := rfl

/-- Claim C9 as amended: every string accepted by the `f64` grammar (including
negative values, exponent forms such as `"1e3"`, infinities and `NaN`) parses
as a rate whose value the cast saturates into `0 ..= 65535` — `Rate::from_str`
never errors on them; and `OutputModes::from_str` never returns
`Err(InvalidRate(_))` on inputs all of whose Unicode decimal digits are ASCII,
because every rate substring its regex matches is then an ASCII
digits-dot-digits string, which parses as an `f64`.  (On other inputs it can,
see the counterexample.) -/
theorem C9_rate_saturated :
    (∀ (l : Str) (fv : F64Val), parseF64 l = some fv →
        ∃ v, rateFromStr l = .ok ⟨v⟩ ∧ v ≤ 65535) ∧
      ∀ (s r : Str), (∀ c ∈ s, isNdDigit c = true → c.isDigit = true) →
        outputModesFromStr s ≠ .error (.InvalidRate r) := by
  constructor
  · intro l fv h
    refine ⟨rateRoundCast fv, ?_, ?_⟩
    · unfold rateFromStr
      rw [h]
    · cases fv with
      | num neg n p =>
        cases neg with
        | false => exact Nat.min_le_right _ _
        | true => exact Nat.zero_le _
      | inf neg => cases neg <;> simp [rateRoundCast]
      | nan => exact Nat.zero_le _
  · intro s r hascii h
    unfold outputModesFromStr at h
    split at h
    · next e heq =>
      simp only [Except.error.injEq] at h
      subst h
      refine collectModes_no_invalid_rate ?_ r heq
      intro p hp
      obtain ⟨a, b, hab, hne, hda, hdb⟩ := findMatchesAux_rate_shape hp
      exact ⟨a, b, hab, hne,
        fun c hc => hascii c (hda c hc).2 (hda c hc).1,
        fun c hc => hascii c (hdb c hc).2 (hdb c hc).1⟩
    · cases h

/-- Claim C9, witness: the exponent form `"1e3"` (accepted by the grammar,
value 1000) is Ok and in range, and the all-ASCII capability line
`"12x34 5.2\n"` cannot produce `InvalidRate`. -/
theorem C9_witness :
    (∃ v, rateFromStr "1e3".data = .ok ⟨v⟩ ∧ v ≤ 65535) ∧
      outputModesFromStr "12x34 5.2\n".data
        ≠ .error (.InvalidRate "5.2".data) :=
  ⟨C9_rate_saturated.1 "1e3".data (.num false 1000 1) rfl,
    C9_rate_saturated.2 "12x34 5.2\n".data "5.2".data (by decide)⟩

/-! The domain model of `screen.rs`: `Position`, `State`, `Orientation`,
`Mode`, `Output`, `Layout`.  Output names are Lean `String`s (they are only
compared, never parsed).  `HashMap<String, Output>` is modelled as an
association list whose insert replaces the previous binding for the key, which
is lookup-equivalent to the Rust map. -/

/-- The `Position` enum of `screen.rs`: `Center` or relative to a named
output. -/
inductive Position where
  | Center : Position
  | LeftOf : String → Position
  | RightOf : String → Position
  | Above : String → Position
  | Below : String → Position
  deriving DecidableEq, Inhabited

/-- The reference output of a relative position, `none` for `Center`. -/
def positionRef : Position → Option String
  | .Center => none
  | .LeftOf r => some r
  | .RightOf r => some r
  | .Above r => some r
  | .Below r => some r

/-- The `State` enum of `screen.rs`. -/
inductive State where
  | Connected : State
  | Duplicated : String → State
  | Disconnected : State
  deriving DecidableEq, Inhabited

/-- The `Orientation` enum of `screen.rs`. -/
inductive Orientation where
  | Normal : Orientation
  | Inverted : Orientation
  | Left : Orientation
  | Right : Orientation
  deriving DecidableEq, Inhabited

/-- The `Mode` struct of `screen.rs`. -/
structure Mode where
  resolution : Resolution
  rate : Rate
  deriving DecidableEq, Inhabited

/-- The `Output` struct of `screen.rs`. -/
structure Output where
  name : String
  mode : Mode
  is_primary : Bool
  state : State
  position : Position
  orientation : Orientation
  deriving DecidableEq, Inhabited

/-- Embedding of `Output::new` (`screen.rs` lines 311-328): empty name, zero
mode, not primary, `Disconnected`, `Center`, `Normal`. -/
def Output.new : Output :=
  { name := ""
    mode := { resolution := ⟨0, 0⟩, rate := ⟨0⟩ }
    is_primary := false
    state := .Disconnected
    position := .Center
    orientation := .Normal }

/-- Lookup in an association-list map (`HashMap::get`). -/
def alookup : List (String × α) → String → Option α
  | [], _ => none
  | (k, v) :: rest, n => if k = n then some v else alookup rest n

/-- Remove a key from an association-list map (`HashMap::remove`). -/
def eraseKey (l : List (String × α)) (k : String) : List (String × α) :=
  l.filter fun p => p.1 ≠ k

/-- The `Layout` struct.  `screen.rs` declares `name` and the `outputs` map;
the `is_current` flag is the current-layout marker read and written by
`config.rs` (`layout.is_current`), present on the most complete revision of
the struct and described by the spec ("may be marked current"). -/
structure Layout where
  name : String
  outputs : List (String × Output)
  is_current : Bool
  deriving DecidableEq, Inhabited

/-- Embedding of `Layout::new` (`screen.rs` lines 336-342). -/
def Layout.new : Layout := { name := "", outputs := [], is_current := false }

/-- Embedding of `Layout::add` (`screen.rs` lines 352-358):
`outputs.insert(output.name.clone(), output)`, replacing any previous entry
for that name. -/
def Layout.add (l : Layout) (o : Output) : Layout :=
  { l with outputs := (o.name, o) :: eraseKey l.outputs o.name }

/-- Embedding of `Layout::get` (`screen.rs` lines 356-358). -/
def Layout.get (l : Layout) (n : String) : Option Output :=
  alookup l.outputs n

/-- Embedding of `Layout::is_empty`. -/
def Layout.isEmptyB (l : Layout) : Bool := l.outputs.isEmpty

theorem alookup_eraseKey_ne {l : List (String × α)} {k n : String}
    (h : n ≠ k) : alookup (eraseKey l k) n = alookup l n := by
  induction l with
  | nil => rfl
  | cons p rest ih =>
    obtain ⟨pk, pv⟩ := p
    by_cases hpk : pk = k
    · subst hpk
      simp only [eraseKey, List.filter_cons, decide_not, decide_eq_true_eq,
        if_neg, Bool.not_eq_true', decide_eq_false_iff_not] at *
      rw [if_neg (by simp)]
      rw [alookup, if_neg (fun hkn => h hkn.symm)]
      exact ih
    · simp only [eraseKey, List.filter_cons] at *
      rw [if_pos (by simpa using hpk)]
      by_cases hn : pk = n
      · simp [alookup, hn]
      · rw [alookup, if_neg hn, alookup, if_neg hn]
        exact ih

theorem alookup_mem {l : List (String × α)} {n : String} {v : α}
    (h : alookup l n = some v) : (n, v) ∈ l := by
  induction l with
  | nil => cases h
  | cons p rest ih =>
    obtain ⟨pk, pv⟩ := p
    rw [alookup] at h
    split at h
    · next hk =>
      simp only [Option.some.injEq] at h
      subst hk; subst h
      exact List.mem_cons_self _ _
    · exact List.mem_cons_of_mem _ (ih h)

theorem Layout.get_add (l : Layout) (o : Output) (n : String) :
    (l.add o).get n = if o.name = n then some o else l.get n := by
  unfold Layout.get Layout.add
  by_cases h : o.name = n
  · simp [alookup, h]
  · rw [if_neg h]
    simp only [alookup, if_neg h]
    exact alookup_eraseKey_ne (fun hn => h hn.symm)

/-- Well-formedness of a layout map: every key is the name of the output
stored under it, and keys are unique. -/
def LayoutWF (l : Layout) : Prop :=
  (∀ p ∈ l.outputs, p.1 = p.2.name) ∧ (l.outputs.map Prod.fst).Nodup

/-- Claim C10: `Layout::add` stores every output under its own name and
replaces any previous entry for that name, so every layout reachable through
`Layout::new` and `Layout::add` keys every entry by the stored output's name
with at most one entry per name, and `Layout::get(n)` can only return an
output named `n`. -/
theorem C10_layout_keys :
    LayoutWF Layout.new ∧
      (∀ (l : Layout) (o : Output), LayoutWF l → LayoutWF (l.add o)) ∧
      (∀ (l : Layout) (n : String) (o : Output), LayoutWF l →
        l.get n = some o → o.name = n) := by
  refine ⟨⟨by simp [Layout.new], by simp [Layout.new]⟩, ?_, ?_⟩
  · intro l o hwf
    constructor
    · intro p hp
      rcases List.mem_cons.1 hp with rfl | hp
      · rfl
      · exact hwf.1 p (List.mem_filter.1 hp).1
    · simp only [Layout.add, List.map_cons, List.nodup_cons]
      constructor
      · intro hmem
        obtain ⟨⟨qk, qv⟩, hq, hqn⟩ := List.mem_map.1 hmem
        have := (List.mem_filter.1 hq).2
        simp only [decide_not, Bool.not_eq_true', decide_eq_false_iff_not] at this
        exact this hqn
      · exact List.Nodup.sublist
          (List.Sublist.map _ (List.filter_sublist _)) hwf.2
  · intro l n o hwf hget
    have hmem := alookup_mem hget
    exact (hwf.1 (n, o) hmem).symm

/-- Claim C10, witness: the preservation statement applied to a concrete
one-entry layout. -/
theorem C10_witness :
    LayoutWF (Layout.new.add { Output.new with name := "HDMI-1" }) ∧
      ({ Output.new with name := "HDMI-1" } : Output).name = "HDMI-1" :=
  ⟨C10_layout_keys.2.1 Layout.new _ C10_layout_keys.1,
    C10_layout_keys.2.2 (Layout.new.add { Output.new with name := "HDMI-1" })
      "HDMI-1" _
      (C10_layout_keys.2.1 Layout.new _ C10_layout_keys.1) rfl⟩

/-! The layout wizard (`UI::create_layout`, `ui.rs` lines 182-275).

The menu collaborator (`run_until_output_not_matched`) only ever returns a
choice that is a member of the offered list, so a finished wizard run is
modelled by a script of per-iteration choices, each already at the domain
level (the label-string round trips through `State::from`, `Position::from`,
`Resolution::from<String>` and `Rate::from<String>` are exact on menu content,
see `C3`).  A scripted choice that the real prompts would not offer makes the
embedded run return `none` — in the real program that run never finishes this
iteration.  The layout-name step (restart on empty or declined-overwrite
names) restarts the wizard with completely fresh state, so a completed run is
one completed pass, which is what `createLayoutRun` models: the name is a
parameter and the pass is run to the finalize step. -/

/-- The answers a user gives during one iteration of the output loop. -/
structure Choice where
  name : String
  state : State
  resolution : Resolution
  rate : Rate
  orientation : Orientation
  position : Position
  makePrimary : Bool
  addAnother : Bool
  deriving DecidableEq, Inhabited

/-- Mutable state of the wizard loop: the remaining catalog
(`output_modes`), the layout under construction, the
`relative_outputs` map, and the `is_primary_selected` flag. -/
structure WizState where
  pool : List (String × OutputModes)
  layout : Layout
  rel : List (String × String)
  primarySelected : Bool

/-- The candidate reference outputs offered by `select_position`
(`ui.rs` lines 136-147): the other outputs that either have no recorded
position-reference yet or whose recorded reference is the current output. -/
def positionCandidates (current : String) (others : List String)
    (rel : List (String × String)) : List String :=
  others.filter fun x =>
    match alookup rel x with
    | some r => r = current
    | none => true

/-- Embedding of `select_position` (`ui.rs` lines 130-169): `Center` is always
offered; a relative position requires a reference chosen from the candidate
list (empty candidates offer only the `Center` label), and a chosen reference
is recorded in `relative_outputs` under the current output's name. -/
def selectPosition (o : Output) (others : List String)
    (rel : List (String × String)) (pos : Position) :
    Option (Output × List (String × String)) :=
  match positionRef pos with
  | none => some ({ o with position := pos }, rel)
  | some r =>
    if r ∈ positionCandidates o.name others rel then
      some ({ o with position := pos },
        (o.name, r) :: eraseKey rel o.name)
    else none

/-- Validity of the state choice (`select_state`, `ui.rs` lines 87-101): a
`Duplicated` reference is chosen from the other outputs. -/
def stateValid (st : State) (others : List String) : Bool :=
  match st with
  | .Duplicated d => d ∈ others
  | _ => true

/-- One pass through the body of the wizard loop for the choices `c`:
`select_output_name` (must name a pooled output), `select_state`, then — for
non-disconnected outputs — resolution, rate and orientation from the catalog,
position for connected outputs only, and the primary flag guarded by the
per-run `is_primary_selected` flag; finally the output is removed from the
pool and added to the layout.  Returns the new state and whether the loop
continues (`pool` non-empty and the user wants another screen). -/
def wizardStep (connected : List String) (st : WizState) (c : Choice) :
    Option (WizState × Bool) :=
  match alookup st.pool c.name with
  | none => none
  | some modes =>
    if stateValid c.state (connected.filter fun n => n ≠ c.name) then
      match
        (match c.state with
         | .Disconnected =>
           some ({ Output.new with name := c.name, state := c.state },
             st.rel, st.primarySelected)
         | _ =>
           if c.resolution ∈ modes.resolutions ∧ c.rate ∈ modes.rates then
             match
               (match c.state with
                | .Connected =>
                  selectPosition
                    { Output.new with
                        name := c.name
                        state := c.state
                        mode := ⟨c.resolution, c.rate⟩
                        orientation := c.orientation }
                    (connected.filter fun n => n ≠ c.name) st.rel c.position
                | _ =>
                  some ({ Output.new with
                      name := c.name
                      state := c.state
                      mode := ⟨c.resolution, c.rate⟩
                      orientation := c.orientation }, st.rel))
             with
             | none => none
             | some (o3, rel3) =>
               some ({ o3 with
                   is_primary := !st.primarySelected && c.makePrimary },
                 rel3,
                 st.primarySelected || (!st.primarySelected && c.makePrimary))
           else none)
      with
      | none => none
      | some (o, rel5, prim5) =>
        some
          ({ pool := eraseKey st.pool c.name
             layout := st.layout.add o
             rel := rel5
             primarySelected := prim5 },
            !(eraseKey st.pool c.name).isEmpty && c.addAnother)
    else none

/-- The wizard loop: run one step per scripted choice; stop when the step says
to stop.  A script that runs out while the loop would continue is an
unfinished run (`none`). -/
def wizardLoop (connected : List String) :
    WizState → List Choice → Option WizState
  | _, [] => none
  | st, c :: rest =>
    match wizardStep connected st c with
    | none => none
    | some (st2, cont) =>
      if cont then wizardLoop connected st2 rest else some st2

/-- The default entry appended for untouched and disconnected outputs in the
finalize step: `Output { name, ..Output::new() }`. -/
def defaultOutput (n : String) : Output := { Output.new with name := n }

/-- The finalize loop (`ui.rs` lines 258-267): append a default disconnected
entry for every name still in the pool and every physically disconnected
output. -/
def finalizeLayout (l : Layout) (names : List String) : Layout :=
  names.foldl (fun acc n => acc.add (defaultOutput n)) l

/-- One completed pass of `create_layout` after the name step: empty catalog
returns early with no layout; otherwise the loop runs the script, an empty
finished layout is abandoned, and otherwise the finalize loop completes the
layout, which is then persisted.  The result is the persisted layout. -/
def createLayoutRun (pool : List (String × OutputModes))
    (disconnected : List String) (layoutName : String)
    (script : List Choice) : Option Layout :=
  if pool.isEmpty then none
  else
    match wizardLoop (pool.map Prod.fst)
        { pool := pool
          layout := { Layout.new with name := layoutName }
          rel := []
          primarySelected := false } script with
    | none => none
    | some st =>
      if st.layout.outputs.isEmpty then none
      else some (finalizeLayout st.layout (st.pool.map Prod.fst ++ disconnected))

theorem positionRef_none {pos : Position} (h : positionRef pos = none) :
    pos = .Center := by
  cases pos <;> simp [positionRef] at h ⊢

/-- Claim C6: in `select_position` for current output `O`, the offered
reference candidates are exactly the other outputs `X` whose recorded
position-reference is absent or is `O` itself; and when the candidate list is
empty, any finished `select_position` leaves `O` at `Center`. -/
theorem C6_select_position :
    (∀ (cur : String) (others : List String) (rel : List (String × String))
        (x : String),
        x ∈ positionCandidates cur others rel ↔
          x ∈ others ∧ (alookup rel x = none ∨ alookup rel x = some cur)) ∧
      ∀ (o : Output) (others : List String) (rel : List (String × String))
        (pos : Position) (o2 : Output) (rel2 : List (String × String)),
        positionCandidates o.name others rel = [] →
        selectPosition o others rel pos = some (o2, rel2) →
        o2.position = Position.Center := by
  constructor
  · intro cur others rel x
    simp only [positionCandidates, List.mem_filter]
    rcases halk : alookup rel x with _ | r
    · simp
    · simp [halk]
  · intro o others rel pos o2 rel2 hcand hsel
    unfold selectPosition at hsel
    rcases hp : positionRef pos with _ | r <;> rw [hp] at hsel
    · simp only [Option.some.injEq, Prod.mk.injEq] at hsel
      rw [← hsel.1, positionRef_none hp]
    · rw [hcand] at hsel
      simp at hsel

/-- Claim C6, witness: with no other outputs the candidate list is empty and a
finished position selection is `Center`. -/
theorem C6_witness :
    ({ Output.new with position := Position.Center } : Output).position
      = Position.Center :=
  C6_select_position.2 Output.new [] [] .Center
    { Output.new with position := Position.Center } [] rfl rfl

theorem selectPosition_fields {o : Output} {others : List String}
    {rel : List (String × String)} {pos : Position} {o2 : Output}
    {rel2 : List (String × String)}
    (h : selectPosition o others rel pos = some (o2, rel2)) :
    o2.name = o.name ∧ o2.is_primary = o.is_primary := by
  unfold selectPosition at h
  split at h
  · simp only [Option.some.injEq, Prod.mk.injEq] at h
    rw [← h.1]
    exact ⟨rfl, rfl⟩
  · split at h
    · simp only [Option.some.injEq, Prod.mk.injEq] at h
      rw [← h.1]
      exact ⟨rfl, rfl⟩
    · exact absurd h (by simp)

theorem wizardStep_spec {connected : List String} {st : WizState} {c : Choice}
    {st2 : WizState} {cont : Bool}
    (h : wizardStep connected st c = some (st2, cont)) :
    ∃ o : Output,
      st2.pool = eraseKey st.pool c.name ∧
      st2.layout = st.layout.add o ∧
      o.name = c.name ∧
      st2.primarySelected = (st.primarySelected || o.is_primary) ∧
      (o.is_primary = true → st.primarySelected = false) ∧
      cont = (!(eraseKey st.pool c.name).isEmpty && c.addAnother) := by
  unfold wizardStep at h
  split at h
  · exact absurd h (by simp)
  rename_i modes hmodes
  split at h
  · split at h
    · exact absurd h (by simp)
    rename_i o rel5 prim5 hinner
    simp only [Option.some.injEq, Prod.mk.injEq] at h
    obtain ⟨h1, h2⟩ := h
    subst h1
    have hfacts : o.name = c.name ∧
        prim5 = (st.primarySelected || o.is_primary) ∧
        (o.is_primary = true → st.primarySelected = false) := by
      split at hinner
      · simp only [Option.some.injEq, Prod.mk.injEq] at hinner
        obtain ⟨ho, hrel, hprim⟩ := hinner
        subst ho
        exact ⟨rfl, by simp [hprim.symm, Output.new],
          by simp [Output.new]⟩
      · split at hinner
        · split at hinner
          · exact absurd hinner (by simp)
          rename_i o3 rel3 hpos2
          simp only [Option.some.injEq, Prod.mk.injEq] at hinner
          obtain ⟨ho, hrel, hprim⟩ := hinner
          subst ho
          have hname3 : o3.name = c.name := by
            split at hpos2
            · exact (selectPosition_fields hpos2).1
            · simp only [Option.some.injEq, Prod.mk.injEq] at hpos2
              rw [← hpos2.1]
          refine ⟨hname3, ?_, ?_⟩
          · rw [← hprim]
          · intro hp
            cases hst : st.primarySelected
            · rfl
            · rw [hst] at hp
              simp at hp
        · exact absurd hinner (by simp)
    exact ⟨o, rfl, rfl, hfacts.1, hfacts.2.1.symm ▸ rfl, hfacts.2.2, h2.symm⟩
  · exact absurd h (by simp)

/-- Number of primary outputs in a layout. -/
def primaryCount (l : Layout) : Nat :=
  (l.outputs.filter fun p => p.2.is_primary).length

theorem primaryCount_add_le (l : Layout) (o : Output) :
    primaryCount (l.add o)
      ≤ primaryCount l + (if o.is_primary then 1 else 0) := by
  have hsub : List.Sublist
      ((eraseKey l.outputs o.name).filter fun p => p.2.is_primary)
      (l.outputs.filter fun p => p.2.is_primary) :=
    List.Sublist.filter _ (List.filter_sublist _)
  have hlen := hsub.length_le
  unfold primaryCount Layout.add
  cases ho : o.is_primary with
  | false =>
    simp only [List.filter_cons, ho, if_false, Bool.false_eq_true]
    omega
  | true =>
    simp only [List.filter_cons, ho, if_true, List.length_cons]
    omega

theorem wizardLoop_invariant {connected : List String} :
    ∀ (script : List Choice) (st st2 : WizState),
      wizardLoop connected st script = some st2 →
      primaryCount st.layout ≤ (if st.primarySelected then 1 else 0) →
      primaryCount st2.layout ≤ (if st2.primarySelected then 1 else 0) := by
  intro script
  induction script with
  | nil => intro st st2 h; exact absurd h (by simp [wizardLoop])
  | cons c rest ih =>
    intro st st2 h hinv
    simp only [wizardLoop] at h
    split at h
    · exact absurd h (by simp)
    · rename_i stm cont hstep
      obtain ⟨o, hpool, hlayout, hname, hprim, himp, hcont⟩ :=
        wizardStep_spec hstep
      have hmid : primaryCount stm.layout
          ≤ (if stm.primarySelected then 1 else 0) := by
        rw [hlayout, hprim]
        have hadd := primaryCount_add_le st.layout o
        cases ho : o.is_primary with
        | false =>
          rw [ho] at hadd
          have hadd2 : primaryCount (st.layout.add o)
              ≤ primaryCount st.layout := by simpa using hadd
          simp only [Bool.or_false]
          omega
        | true =>
          have hsp := himp ho
          rw [ho] at hadd
          have hadd2 : primaryCount (st.layout.add o)
              ≤ primaryCount st.layout + 1 := by simpa using hadd
          have hinv2 : primaryCount st.layout = 0 := by
            rw [hsp] at hinv
            simpa using hinv
          rw [hsp]
          simp only [Bool.false_or, if_true]
          omega
      split at h
      · exact ih stm st2 h hmid
      · simp only [Option.some.injEq] at h
        subst h
        exact hmid

theorem primaryCount_finalize_le (l : Layout) (names : List String) :
    primaryCount (finalizeLayout l names) ≤ primaryCount l := by
  induction names generalizing l with
  | nil => exact Nat.le_refl _
  | cons n ns ih =>
    have h1 := primaryCount_add_le l (defaultOutput n)
    have h2 := ih (l.add (defaultOutput n))
    have h3 : (if (defaultOutput n).is_primary then 1 else 0) = 0 := by
      simp [defaultOutput, Output.new]
    calc primaryCount (finalizeLayout l (n :: ns))
        = primaryCount (finalizeLayout (l.add (defaultOutput n)) ns) := rfl
      _ ≤ primaryCount (l.add (defaultOutput n)) := h2
      _ ≤ primaryCount l := by omega

/-- Claim C5: every layout assembled by a single `create_layout` run has at
most one primary output: the per-run `is_primary_selected` flag makes every
primary assignment after the first evaluate to false. -/
theorem C5_at_most_one_primary (pool : List (String × OutputModes))
    (disconnected : List String) (nm : String) (script : List Choice)
    (L : Layout) (h : createLayoutRun pool disconnected nm script = some L) :
    primaryCount L ≤ 1 := by
  unfold createLayoutRun at h
  split at h
  · exact absurd h (by simp)
  · split at h
    · exact absurd h (by simp)
    · rename_i st hloop
      split at h
      · exact absurd h (by simp)
      · simp only [Option.some.injEq] at h
        subst h
        have hst := wizardLoop_invariant script _ st hloop
          (by simp [primaryCount, Layout.new])
        have hfin := primaryCount_finalize_le st.layout
          (st.pool.map Prod.fst ++ disconnected)
        split at hst <;> omega

/-- Claim C5, witness: the bound instantiated on a completed concrete run with
one catalog output, configured disconnected. -/
theorem C5_witness :
    primaryCount
      { name := "L"
        outputs := [("A", { Output.new with name := "A" })]
        is_current := false } ≤ 1 :=
  C5_at_most_one_primary [("A", ⟨[], []⟩)] [] "L"
    [{ name := "A", state := .Disconnected, resolution := ⟨0, 0⟩,
       rate := ⟨0⟩, orientation := .Normal, position := .Center,
       makePrimary := false, addAnother := false }] _ rfl

theorem Layout_get_finalize (l : Layout) (names : List String) (x : String) :
    (finalizeLayout l names).get x =
      if x ∈ names then some (defaultOutput x) else l.get x := by
  induction names generalizing l with
  | nil => simp [finalizeLayout]
  | cons n ns ih =>
    show (finalizeLayout (l.add (defaultOutput n)) ns).get x = _
    rw [ih, Layout.get_add]
    rw [show (defaultOutput n).name = n from rfl]
    by_cases h1 : x ∈ ns
    · simp [h1, List.mem_cons]
    · by_cases h2 : n = x
      · subst h2
        simp [h1]
      · have h3 : x ≠ n := fun hx => h2 hx.symm
        simp [h1, h2, h3, List.mem_cons]

/-- Claim C4: a completed wizard run over the catalog `{A, B}` in which the
user configures only `A` produces a layout whose entry for `B` is the default
disconnected output (`Disconnected`, default mode, orientation, position); the
configured output `A` also has an entry, so the layout covers every output
known at creation time. -/
theorem C4_untouched_disconnected (A B nm : String) (mA mB : OutputModes)
    (disc : List String) (c : Choice) (L : Layout) (hAB : A ≠ B)
    (hcA : c.name = A)
    (h : createLayoutRun [(A, mA), (B, mB)] disc nm [c] = some L) :
    L.get B = some (defaultOutput B) ∧ ∃ o, L.get A = some o := by
  unfold createLayoutRun at h
  rw [if_neg (by simp)] at h
  split at h
  · exact absurd h (by simp)
  rename_i st hloop
  split at h
  · exact absurd h (by simp)
  simp only [Option.some.injEq] at h
  subst h
  simp only [wizardLoop] at hloop
  split at hloop
  · exact absurd hloop (by simp)
  rename_i stm cont hstep
  obtain ⟨o, hpool, hlayout, hname, hprim, himp, hcont⟩ := wizardStep_spec hstep
  split at hloop
  · exact absurd hloop (by simp [wizardLoop])
  simp only [Option.some.injEq] at hloop
  subst hloop
  have hBA : B ≠ A := Ne.symm hAB
  have hpool2 : eraseKey [(A, mA), (B, mB)] c.name = [(B, mB)] := by
    rw [hcA]
    simp [eraseKey, List.filter_cons, hBA]
  rw [hpool2] at hpool
  constructor
  · rw [Layout_get_finalize, hpool]
    simp
  · rw [Layout_get_finalize]
    by_cases hmem : A ∈ stm.pool.map Prod.fst ++ disc
    · exact ⟨defaultOutput A, by rw [if_pos hmem]⟩
    · rw [if_neg hmem, hlayout, Layout.get_add, hname, hcA, if_pos rfl]
      exact ⟨o, rfl⟩

/-- Claim C4, witness: the concrete two-output run configuring only `"A"`. -/
theorem C4_witness :
    ({ name := "L"
       outputs := [("B", defaultOutput "B"),
         ("A", { Output.new with name := "A" })]
       is_current := false } : Layout).get "B" = some (defaultOutput "B") ∧
      ∃ o,
        ({ name := "L"
           outputs := [("B", defaultOutput "B"),
             ("A", { Output.new with name := "A" })]
           is_current := false } : Layout).get "A" = some o :=
  C4_untouched_disconnected "A" "B" "L" ⟨[], []⟩ ⟨[], []⟩ []
    { name := "A", state := .Disconnected, resolution := ⟨0, 0⟩,
      rate := ⟨0⟩, orientation := .Normal, position := .Center,
      makePrimary := false, addAnother := false }
    { name := "L"
      outputs := [("B", defaultOutput "B"),
        ("A", { Output.new with name := "A" })]
      is_current := false }
    (by decide) rfl rfl

/-! The layout catalog (`LayoutConfig`, `config.rs`).  The catalog is an
association list of named layouts; applying a layout invokes the Display
Backend with the layout's argument list, then marks it current and rewrites
the config file.  Backend invocations and file writes are recorded as
effects so that "no side effect" is statable. -/

/-- Embedding of `impl ToXrandrArg for Position` (`screen.rs` lines 182-192). -/
def Position.toXrandrArg : Position → String
  | .Center => ""
  | .LeftOf o => "--left-of " ++ o
  | .RightOf o => "--right-of " ++ o
  | .Below o => "--below " ++ o
  | .Above o => "--above " ++ o

/-- Embedding of `impl ToXrandrArg for State` (`screen.rs` lines 230-238). -/
def State.toXrandrArg : State → String
  | .Disconnected => "--off"
  | .Connected => ""
  | .Duplicated s => "--same-as " ++ s

/-- Embedding of `impl ToXrandrArg for Orientation` (`screen.rs` lines
267-271): `--rotate` plus the lowercased variant name. -/
def Orientation.toXrandrArg : Orientation → String
  | .Normal => "--rotate normal"
  | .Inverted => "--rotate inverted"
  | .Left => "--rotate left"
  | .Right => "--rotate right"

/-- Embedding of `impl ToXrandrArg for Mode` (`screen.rs` lines 291-299). -/
def Mode.toXrandrArg (m : Mode) : String :=
  "--mode " ++ String.mk (resolutionToStr m.resolution) ++ " --rate "
    ++ String.mk (natToDec m.rate.value)

/-- Modelled from the spec: the per-output part of the Display Backend
argument list.  `Layout::get_xrandr_args` is called by `config.rs` but its
body is absent from the `screen.rs` revision in the source tree; spec section
6 gives the list as `--output <name>` plus the state flag, then, when not
disconnected, the mode, orientation and position flags and `--primary` when
marked primary. -/
def outputXrandrArgs (o : Output) : List String :=
  ["--output " ++ o.name, o.state.toXrandrArg] ++
    (match o.state with
     | .Disconnected => []
     | _ =>
       [o.mode.toXrandrArg, o.orientation.toXrandrArg, o.position.toXrandrArg]
         ++ (if o.is_primary then ["--primary"] else []))

/-- Modelled from the spec: `Layout::get_xrandr_args` concatenates the
per-output argument lists of every output in the layout. -/
def Layout.get_xrandr_args (l : Layout) : List String :=
  l.outputs.foldr (fun p acc => outputXrandrArgs p.2 ++ acc) []

/-- Embedding of `LayoutConfig::_mark_layout_as_current` (`config.rs` lines
133-138): set `is_current` of every layout to whether its name matches. -/
def markLayoutAsCurrent (layouts : List (String × Layout)) (nm : String) :
    List (String × Layout) :=
  layouts.map fun p => (p.1, { p.2 with is_current := p.1 = nm })

/-- Embedding of `LayoutConfig::apply` (`config.rs` lines 124-131),
parameterised by the Display Backend collaborator.  The result carries the
new catalog, the list of backend invocations made, and the number of config
file rewrites.  An absent name skips the whole body and returns `Ok`;
a present name runs the backend (propagating its failure), then marks the
layout current and rewrites the config file once. -/
def applyLayout (backend : List String → Except String Unit)
    (layouts : List (String × Layout)) (nm : String) :
    Except String (List (String × Layout) × List (List String) × Nat) :=
  match alookup layouts nm with
  | none => .ok (layouts, [], 0)
  | some l =>
    match backend l.get_xrandr_args with
    | .error e => .error e
    | .ok _ => .ok (markLayoutAsCurrent layouts nm, [l.get_xrandr_args], 1)

/-- Claim C7: applying a layout name absent from the catalog returns `Ok` and
changes nothing — the catalog (including every current-marker) is untouched,
the Display Backend is never invoked, and the config file is not rewritten. -/
theorem C7_apply_absent_noop (backend : List String → Except String Unit)
    (layouts : List (String × Layout)) (nm : String)
    (h : alookup layouts nm = none) :
    applyLayout backend layouts nm = .ok (layouts, [], 0) := by
  unfold applyLayout
  rw [h]

/-- Claim C7, witness: applying the absent name `"home"` to a one-layout
catalog. -/
theorem C7_witness :
    applyLayout (fun _ => .ok ()) [("work", Layout.new)] "home"
      = .ok ([("work", Layout.new)], [], 0) :=
  C7_apply_absent_noop (fun _ => .ok ()) [("work", Layout.new)] "home" rfl

end Slam
